import Mathlib

/-!
Shallow embedding of the core pipeline of `tennis_elo_bot.py`:
player-name normalization, rating-table construction, the cascading
name resolver, surface classification, match deduplication and the
differential ranker.  Strings are modelled as lists of code points
(`List Nat`), ratings as rationals.
-/

/-- A Python string, modelled as its list of code points. -/
abbrev PyStr := List Nat

/-- Code points of a Lean string literal, for concrete test inputs. -/
def str (s : String) : PyStr := s.data.map Char.toNat

/-- ASCII lowercasing of one code point (models `str.lower`). -/
def lowerNat (n : Nat) : Nat := if 65 ≤ n ∧ n ≤ 90 then n + 32 else n

/-- ASCII uppercasing of one code point (models `str.upper`). -/
def upperNat (n : Nat) : Nat := if 97 ≤ n ∧ n ≤ 122 then n - 32 else n

/-- Models `str.lower`. -/
def pyLower (s : PyStr) : PyStr := s.map lowerNat

/-- Models `str.upper`. -/
def pyUpper (s : PyStr) : PyStr := s.map upperNat

/-- Python whitespace (the characters stripped by `str.strip` and
split on by `str.split`). -/
def isPySpace (n : Nat) : Bool := n == 32 || n == 9 || n == 10 || n == 13 || n == 11 || n == 12

/-- Models `str.strip`: drop whitespace from both ends. -/
def pyStrip (s : PyStr) : PyStr :=
  ((s.dropWhile isPySpace).reverse.dropWhile isPySpace).reverse

/-- Does `a` start `b`? -/
def leadsWith : PyStr → PyStr → Bool
  | [], _ => true
  | _ :: _, [] => false
  | a :: as, b :: bs => a == b && leadsWith as bs

/-- Models the Python substring test `a in b`. -/
def subOf (a : PyStr) : PyStr → Bool
  | [] => a.isEmpty
  | b :: bs => leadsWith a (b :: bs) || subOf a bs

/-- Helper for `pySplit`, accumulating the current word reversed. -/
def splitAux : PyStr → PyStr → List PyStr
  | [], acc => if acc.isEmpty then [] else [acc.reverse]
  | c :: cs, acc =>
    if isPySpace c then
      if acc.isEmpty then splitAux cs [] else acc.reverse :: splitAux cs []
    else splitAux cs (c :: acc)

/-- Models `str.split()`: split on whitespace runs, dropping empties. -/
def pySplit (s : PyStr) : List PyStr := splitAux s []

/-- Per-surface rating record (`hard`, `clay`, `grass`, `overall`),
as built by `load_elo_data`. -/
structure RatingRecord where
  hard : ℚ
  clay : ℚ
  grass : ℚ
  overall : ℚ
deriving DecidableEq

/-- The default record returned when a player is not found. -/
def defaultRecord : RatingRecord := ⟨1500, 1500, 1500, 1500⟩

/-- A rating table: an insertion-ordered mapping from normalized player
key to record (a Python dict). -/
abbrev Table := List (PyStr × RatingRecord)

/-- One parsed CSV row as consumed by `load_elo_data`.  A `none` field
models a missing column or a NaN cell (`pd.notna` false either way). -/
structure EloRow where
  player : Option PyStr
  elo : Option ℚ
  hElo : Option ℚ
  cElo : Option ℚ
  gElo : Option ℚ

/-- The record built from one row by `load_elo_data`: each surface falls
back to the row's `Elo` value, then to `1500.0`. -/
def mkRecord (r : EloRow) : RatingRecord where
  hard := r.hElo.getD (r.elo.getD 1500)
  clay := r.cElo.getD (r.elo.getD 1500)
  grass := r.gElo.getD (r.elo.getD 1500)
  overall := r.elo.getD 1500

/-- Python dict assignment: overwrite in place if the key exists
(keeping its position), else append. -/
def dictInsert (k : PyStr) (v : RatingRecord) : Table → Table
  | [] => [(k, v)]
  | (k₀, v₀) :: t => if k₀ = k then (k₀, v) :: t else (k₀, v₀) :: dictInsert k v t

/-- Models the per-tour loop of `load_elo_data`: rows with a present
player name are keyed by `str(name).lower().strip()` and inserted. -/
def load_elo_data (rows : List EloRow) : Table :=
  rows.foldl
    (fun t r =>
      match r.player with
      | none => t
      | some name => dictInsert (pyStrip (pyLower name)) (mkRecord r) t)
    []

/-- Models `normalize_player_name`: lowercase, strip, remove periods,
hyphens to spaces, remove apostrophes. -/
def normalize_player_name (name : PyStr) : PyStr :=
  if name.isEmpty then []
  else
    (((pyStrip (pyLower name)).filter (fun c => !(c == 46))).map
        (fun c => if c == 45 then 32 else c)).filter (fun c => !(c == 39))

/-- Cascade step 1 (`recherche directe`): exact key lookup. -/
def exactLookup (n : PyStr) (t : Table) : Option RatingRecord :=
  (t.find? (fun e => e.1 == n)).map Prod.snd

/-- Cascade step 2 (`recherche approximative`): first entry whose key
contains the name or is contained in it. -/
def containLookup (n : PyStr) (t : Table) : Option RatingRecord :=
  (t.find? (fun e => subOf n e.1 || subOf e.1 n)).map Prod.snd

/-- The tokens of length above 1 of the normalized name (`name_parts`). -/
def nameParts (n : PyStr) : List PyStr :=
  (pySplit n).filter (fun p => decide (1 < p.length))

/-- Cascade step 3 (`recherche par mots`): with at least two tokens,
first entry whose key contains them all. -/
def tokenLookup (n : PyStr) (t : Table) : Option RatingRecord :=
  if 2 ≤ (nameParts n).length then
    (t.find? (fun e => (nameParts n).all (fun p => subOf p e.1))).map Prod.snd
  else none

/-- Cascade step 4 (`recherche par nom de famille`): the last token, if
longer than 3, matched inside the key or inside one of its words. -/
def surnameLookup (n : PyStr) (t : Table) : Option RatingRecord :=
  match (nameParts n).getLast? with
  | none => none
  | some last =>
    if 3 < last.length then
      (t.find? (fun e => subOf last e.1 || (pySplit e.1).any (fun p => subOf last p))).map
        Prod.snd
    else none

/-- The resolver cascade of `find_player_elo`, against an already
selected table: first rule that matches wins, else the default. -/
def resolveIn (name : PyStr) (t : Table) : RatingRecord :=
  let n := normalize_player_name name
  ((((exactLookup n t).or (containLookup n t)).or (tokenLookup n t)).or
      (surnameLookup n t)).getD defaultRecord

/-- Table selection of `find_player_elo`: the ATP table exactly when
`tour.upper() == 'ATP'`, else the WTA table. -/
def selectTable (tour : PyStr) (atp wta : Table) : Table :=
  if pyUpper tour = str "ATP" then atp else wta

/-- Models `find_player_elo`: empty name short-circuits to the default
record, otherwise the cascade runs on the tour's table. -/
def find_player_elo (name tour : PyStr) (atp wta : Table) : RatingRecord :=
  if name.isEmpty then defaultRecord
  else resolveIn name (selectTable tour atp wta)

/-- Playing surface. -/
inductive Surface where
  | hard
  | clay
  | grass
deriving DecidableEq

/-- The clay keyword list of `get_surface_from_tournament`. -/
def clay_keywords : List PyStr :=
  [str "roland", str "garros", str "french", str "rome", str "madrid", str "monte carlo",
    str "barcelona", str "clay", str "terre", str "battue", str "hamburg", str "bastad",
    str "gstaad", str "umag", str "bucharest", str "marrakech", str "estoril", str "munich",
    str "houston"]

/-- The grass keyword list of `get_surface_from_tournament`. -/
def grass_keywords : List PyStr :=
  [str "wimbledon", str "queens", str "halle", str "eastbourne", str "grass", str "gazon",
    str "hertogenbosch", str "mallorca", str "bad homburg", str "newport"]

/-- Models `get_surface_from_tournament`: empty name is hard; clay
keywords are checked before grass; default hard. -/
def get_surface_from_tournament (tournament : PyStr) : Surface :=
  if tournament.isEmpty then .hard
  else if clay_keywords.any (fun k => subOf k (pyLower tournament)) then .clay
  else if grass_keywords.any (fun k => subOf k (pyLower tournament)) then .grass
  else .hard

/-- One raw fixture as produced by the two source feeds. -/
structure RawMatch where
  player1 : PyStr
  player2 : PyStr
  tour : PyStr
  tournament : PyStr
  commence_time : PyStr
deriving DecidableEq

/-- A dedup key: normalized player pair plus tour. -/
abbrev MatchKey := PyStr × PyStr × PyStr

/-- The key in input orientation. -/
def key1 (m : RawMatch) : MatchKey :=
  (normalize_player_name m.player1, normalize_player_name m.player2, m.tour)

/-- The key with the players swapped. -/
def key2 (m : RawMatch) : MatchKey :=
  (normalize_player_name m.player2, normalize_player_name m.player1, m.tour)

/-- The dedup loop of `run_daily_analysis`: keep a match only when
neither orientation of its key has been seen, then record both. -/
def dedupAux : List RawMatch → List MatchKey → List RawMatch
  | [], _ => []
  | m :: rest, seen =>
    if key1 m ∈ seen ∨ key2 m ∈ seen then dedupAux rest seen
    else m :: dedupAux rest (key1 m :: key2 m :: seen)

/-- Match deduplication as performed in `run_daily_analysis`. -/
def dedup_matches (ms : List RawMatch) : List RawMatch := dedupAux ms []

/-- Modelled from the spec (§4.4): two raw matches are duplicates when
their unordered normalized player pairs and tours agree. -/
def sameMatchKey (m₀ m : RawMatch) : Bool := key1 m == key1 m₀ || key1 m == key2 m₀

/-- Modelled from the spec (§4.4): keep a match exactly when no earlier
match of the input has an equal key. -/
def dedupSpecAux (prev : List RawMatch) : List RawMatch → List RawMatch
  | [] => []
  | m :: rest =>
    if prev.any (fun m₀ => sameMatchKey m₀ m) then dedupSpecAux (prev ++ [m]) rest
    else m :: dedupSpecAux (prev ++ [m]) rest

/-- Modelled from the spec (§4.4): first-occurrence-wins deduplication. -/
def dedup_spec (ms : List RawMatch) : List RawMatch := dedupSpecAux [] ms

/-- One annotated match as built by `calculate_elo_differences`. -/
structure MatchAnalysis where
  player1 : PyStr
  player1_elo : ℚ
  player2 : PyStr
  player2_elo : ℚ
  surface : Surface
  elo_difference : ℚ
  tour : PyStr
  tournament : PyStr
  commence_time : PyStr
deriving DecidableEq

/-- Reading the surface-named field of a record
(`elo_data.get(surface, ...)`; the field is always present). -/
def surfaceRating (r : RatingRecord) : Surface → ℚ
  | .hard => r.hard
  | .clay => r.clay
  | .grass => r.grass

/-- Models Python `abs` on a rational. -/
def pyAbs (q : ℚ) : ℚ := if q < 0 then -q else q

/-- The per-match body of `calculate_elo_differences`. -/
def annotateMatch (atp wta : Table) (m : RawMatch) : MatchAnalysis :=
  let surface := get_surface_from_tournament m.tournament
  let e1 := surfaceRating (find_player_elo m.player1 m.tour atp wta) surface
  let e2 := surfaceRating (find_player_elo m.player2 m.tour atp wta) surface
  { player1 := m.player1, player1_elo := e1, player2 := m.player2, player2_elo := e2,
    surface := surface, elo_difference := pyAbs (e1 - e2),
    tour := m.tour, tournament := m.tournament, commence_time := m.commence_time }

/-- The descending-differential comparison used for the final sort. -/
def diffGE (a b : MatchAnalysis) : Bool := decide (b.elo_difference ≤ a.elo_difference)

/-- Models `calculate_elo_differences`: skip matches with a missing
player, annotate the rest, stable-sort by differential descending. -/
def calculate_elo_differences (atp wta : Table) (ms : List RawMatch) :
    List MatchAnalysis :=
  (ms.filterMap
      (fun m =>
        if m.player1.isEmpty || m.player2.isEmpty then none
        else some (annotateMatch atp wta m))).mergeSort diffGE

/-! ## String lemmas -/

/-- Swap the player components of a dedup key. -/
def swapKey (k : MatchKey) : MatchKey := (k.2.1, k.1, k.2.2)

theorem swapKey_swapKey (k : MatchKey) : swapKey (swapKey k) = k := by
  rcases k with ⟨a, b, c⟩
  rfl

theorem key2_eq_swapKey (m : RawMatch) : key2 m = swapKey (key1 m) := rfl

theorem swapKey_eq_iff {a b : MatchKey} : swapKey a = b ↔ a = swapKey b := by
  constructor
  · rintro rfl
    exact (swapKey_swapKey a).symm
  · rintro rfl
    exact swapKey_swapKey b

theorem swapKey_inj {a b : MatchKey} : swapKey a = swapKey b ↔ a = b := by
  constructor
  · intro h
    have := congrArg swapKey h
    rwa [swapKey_swapKey, swapKey_swapKey] at this
  · rintro rfl
    rfl

/-- Unordered-pair-plus-tour equality of keys. -/
def keyRel (a b : MatchKey) : Prop := a = b ∨ a = swapKey b

theorem keyRel_symm {a b : MatchKey} (h : keyRel a b) : keyRel b a := by
  rcases h with rfl | rfl
  · exact Or.inl rfl
  · exact Or.inr (swapKey_swapKey b).symm

theorem keyRel_trans {a b c : MatchKey} (h1 : keyRel a b) (h2 : keyRel b c) : keyRel a c := by
  rcases h1 with h1 | h1 <;> rcases h2 with h2 | h2 <;>
    simp_all [keyRel, swapKey_swapKey]

theorem sameMatchKey_iff {m₀ m : RawMatch} :
    sameMatchKey m₀ m = true ↔ keyRel (key1 m) (key1 m₀) := by
  simp [sameMatchKey, keyRel, key2_eq_swapKey]

/-- The invariant tying the `seen` set of the code's loop to the prefix
of already-processed matches of the specification's loop. -/
def SeenInv (prev : List RawMatch) (seen : List MatchKey) : Prop :=
  ∀ m : RawMatch, (key1 m ∈ seen ∨ key2 m ∈ seen) ↔
    ∃ m₀ ∈ prev, sameMatchKey m₀ m = true

theorem dedupAux_eq_spec :
    ∀ (ms : List RawMatch) (prev : List RawMatch) (seen : List MatchKey),
      SeenInv prev seen → dedupAux ms seen = dedupSpecAux prev ms := by
  intro ms
  induction ms with
  | nil => intro prev seen _; rfl
  | cons m rest ih =>
    intro prev seen hinv
    have hcond : (key1 m ∈ seen ∨ key2 m ∈ seen) ↔
        (prev.any (fun m₀ => sameMatchKey m₀ m) = true) := by
      rw [hinv m, List.any_eq_true]
    by_cases h : key1 m ∈ seen ∨ key2 m ∈ seen
    · rw [dedupAux, if_pos h, dedupSpecAux, if_pos (hcond.mp h)]
      refine ih (prev ++ [m]) seen (fun m₁ => ?_)
      rw [hinv m₁]
      constructor
      · rintro ⟨m₀, hmem, hsame⟩
        exact ⟨m₀, List.mem_append_left _ hmem, hsame⟩
      · rintro ⟨m₀, hmem, hsame⟩
        rcases List.mem_append.mp hmem with hmem | hmem
        · exact ⟨m₀, hmem, hsame⟩
        · rw [List.mem_singleton] at hmem
          subst hmem
          obtain ⟨m₂, hm₂mem, hm₂same⟩ := List.any_eq_true.mp (hcond.mp h)
          refine ⟨m₂, hm₂mem, ?_⟩
          rw [sameMatchKey_iff] at hsame hm₂same ⊢
          exact keyRel_trans hsame hm₂same
    · rw [dedupAux, if_neg h, dedupSpecAux, if_neg (fun hc => h (hcond.mpr hc))]
      congr 1
      refine ih (prev ++ [m]) (key1 m :: key2 m :: seen) (fun m₁ => ?_)
      have hswap1 : key2 m₁ = key1 m ↔ key1 m₁ = key2 m := by
        rw [key2_eq_swapKey, key2_eq_swapKey, swapKey_eq_iff]
      have hswap2 : key2 m₁ = key2 m ↔ key1 m₁ = key1 m := by
        rw [key2_eq_swapKey, key2_eq_swapKey, swapKey_inj]
      constructor
      · intro hmem
        simp only [List.mem_cons] at hmem
        rcases hmem with (h1 | h1 | h1) | (h1 | h1 | h1)
        · refine ⟨m, List.mem_append_right _ (List.mem_singleton_self m), ?_⟩
          rw [sameMatchKey_iff]
          exact Or.inl h1
        · refine ⟨m, List.mem_append_right _ (List.mem_singleton_self m), ?_⟩
          rw [sameMatchKey_iff, key2_eq_swapKey] at *
          exact Or.inr h1
        · obtain ⟨m₀, hmem₀, hsame₀⟩ := (hinv m₁).mp (Or.inl h1)
          exact ⟨m₀, List.mem_append_left _ hmem₀, hsame₀⟩
        · refine ⟨m, List.mem_append_right _ (List.mem_singleton_self m), ?_⟩
          rw [sameMatchKey_iff]
          exact Or.inr (hswap1.mp h1)
        · refine ⟨m, List.mem_append_right _ (List.mem_singleton_self m), ?_⟩
          rw [sameMatchKey_iff]
          exact Or.inl (hswap2.mp h1)
        · obtain ⟨m₀, hmem₀, hsame₀⟩ := (hinv m₁).mp (Or.inr h1)
          exact ⟨m₀, List.mem_append_left _ hmem₀, hsame₀⟩
      · rintro ⟨m₀, hmem₀, hsame₀⟩
        simp only [List.mem_cons]
        rcases List.mem_append.mp hmem₀ with hmem₀ | hmem₀
        · rcases (hinv m₁).mpr ⟨m₀, hmem₀, hsame₀⟩ with h1 | h1
          · exact Or.inl (Or.inr (Or.inr h1))
          · exact Or.inr (Or.inr (Or.inr h1))
        · rw [List.mem_singleton] at hmem₀
          subst hmem₀
          rw [sameMatchKey_iff] at hsame₀
          rcases hsame₀ with h1 | h1
          · exact Or.inl (Or.inl h1)
          · rw [← key2_eq_swapKey] at h1
            exact Or.inl (Or.inr (Or.inl h1))

theorem dedupAux_sublist :
    ∀ (ms : List RawMatch) (seen : List MatchKey), List.Sublist (dedupAux ms seen) ms := by
  intro ms
  induction ms with
  | nil => intro seen; exact List.Sublist.refl []
  | cons m rest ih =>
    intro seen
    rw [dedupAux]
    split
    · exact List.Sublist.cons m (ih seen)
    · exact List.Sublist.cons₂ m (ih _)

/-- The dedup-symmetry example of the spec. -/
def exMatchAB : RawMatch := ⟨str "A", str "B", str "ATP", [], []⟩

/-- The same fixture reported with the players swapped. -/
def exMatchBA : RawMatch := ⟨str "B", str "A", str "ATP", [], []⟩

/-- C3: deduplication is order-preserving and first-occurrence-wins
under unordered normalized-pair-plus-tour key equality; the swapped
duplicate example collapses to its first occurrence. -/
theorem dedup_first_occurrence_wins :
    (∀ ms : List RawMatch,
      List.Sublist (dedup_matches ms) ms ∧ dedup_matches ms = dedup_spec ms) ∧
    dedup_matches [exMatchAB, exMatchBA] = [exMatchAB] ∧
    (dedup_matches [exMatchAB, exMatchBA]).length = 1 := by
  refine ⟨fun ms => ⟨dedupAux_sublist ms [], ?_⟩, by decide, by decide⟩
  exact dedupAux_eq_spec ms [] [] (fun m => by simp)

/-! ## Ranker lemmas -/

theorem diffGE_trans : ∀ a b c : MatchAnalysis, diffGE a b → diffGE b c → diffGE a c := by
  intro a b c h1 h2
  simp only [diffGE, decide_eq_true_eq] at h1 h2 ⊢
  exact le_trans h2 h1

theorem diffGE_total : ∀ a b : MatchAnalysis, diffGE a b || diffGE b a := by
  intro a b
  simp only [diffGE, Bool.or_eq_true, decide_eq_true_eq]
  exact le_total _ _

theorem filterMap_if_eq_map_filter {α β : Type} (p : α → Bool) (f : α → β) :
    ∀ l : List α,
      (l.filterMap fun a => if p a then none else some (f a)) =
        (l.filter fun a => !p a).map f := by
  intro l
  induction l with
  | nil => rfl
  | cons a l ih => by_cases h : p a <;> simp [List.filterMap_cons, List.filter_cons, h, ih]

theorem mergeSort_diffGE_filter (l : List MatchAnalysis) (d : ℚ) :
    (List.mergeSort l diffGE).filter (fun a => a.elo_difference == d) =
      l.filter (fun a => a.elo_difference == d) := by
  set p := fun a : MatchAnalysis => a.elo_difference == d with hp
  have hall : ∀ a, p a = true → a.elo_difference = d := by
    intro a ha
    simpa [hp] using ha
  have hc : (l.filter p).Pairwise (fun a b => diffGE a b = true) := by
    refine List.pairwise_of_forall_mem_list ?_
    intro a ha b hb
    have ha2 := hall a (List.of_mem_filter ha)
    have hb2 := hall b (List.of_mem_filter hb)
    simp [diffGE, ha2, hb2]
  have h1 : List.Sublist (l.filter p) (List.mergeSort l diffGE) :=
    List.sublist_mergeSort diffGE_trans diffGE_total hc (List.filter_sublist l)
  have hfil : (l.filter p).filter p = l.filter p :=
    List.filter_eq_self.mpr (fun a ha => List.of_mem_filter ha)
  have h2 : List.Sublist (l.filter p) ((List.mergeSort l diffGE).filter p) := by
    have h3 := h1.filter p
    rwa [hfil] at h3
  have hlen : ((List.mergeSort l diffGE).filter p).length = (l.filter p).length :=
    ((List.mergeSort_perm l diffGE).filter p).length_eq
  exact (h2.eq_of_length hlen.symm).symm

/-- Test table for the ranking-order example. -/
def exAtp : Table :=
  [(str "w", ⟨1550, 1550, 1550, 1550⟩), (str "x", ⟨1500, 1500, 1500, 1500⟩),
    (str "y", ⟨1700, 1700, 1700, 1700⟩), (str "z", ⟨1510, 1510, 1510, 1510⟩)]

/-- Fixture with differential 50. -/
def exM50 : RawMatch := ⟨str "w", str "x", str "ATP", [], []⟩

/-- Fixture with differential 200. -/
def exM200 : RawMatch := ⟨str "y", str "x", str "ATP", [], []⟩

/-- Fixture with differential 10. -/
def exM10 : RawMatch := ⟨str "z", str "x", str "ATP", [], []⟩

/-- Annotated form of `exM50`. -/
def exA50 : MatchAnalysis := ⟨str "w", 1550, str "x", 1500, .hard, 50, str "ATP", [], []⟩

/-- Annotated form of `exM200`. -/
def exA200 : MatchAnalysis := ⟨str "y", 1700, str "x", 1500, .hard, 200, str "ATP", [], []⟩

/-- Annotated form of `exM10`. -/
def exA10 : MatchAnalysis := ⟨str "z", 1510, str "x", 1500, .hard, 10, str "ATP", [], []⟩

/-- C4: the ranker's output is a permutation of the annotated surviving
matches, sorted by differential descending, and stable: for every
differential value the survivors with that value keep their input
order; differentials in input order 50, 200, 10 come out 200, 50, 10. -/
theorem ranking_sorted_stable :
    (∀ (atp wta : Table) (ms : List RawMatch),
      List.Perm (calculate_elo_differences atp wta ms)
        ((ms.filter fun m => !(m.player1.isEmpty || m.player2.isEmpty)).map
          (annotateMatch atp wta)) ∧
      List.Pairwise (fun a b : MatchAnalysis => b.elo_difference ≤ a.elo_difference)
        (calculate_elo_differences atp wta ms) ∧
      (∀ d : ℚ,
        (calculate_elo_differences atp wta ms).filter (fun a => a.elo_difference == d) =
          ((ms.filter fun m => !(m.player1.isEmpty || m.player2.isEmpty)).map
            (annotateMatch atp wta)).filter (fun a => a.elo_difference == d))) ∧
    calculate_elo_differences exAtp [] [exM50, exM200, exM10] = [exA200, exA50, exA10] := by
  constructor
  · intro atp wta ms
    rw [calculate_elo_differences, filterMap_if_eq_map_filter]
    refine ⟨List.mergeSort_perm _ _, ?_, fun d => mergeSort_diffGE_filter _ d⟩
    have hs := List.sorted_mergeSort diffGE_trans diffGE_total
      ((ms.filter fun m => !(m.player1.isEmpty || m.player2.isEmpty)).map
        (annotateMatch atp wta))
    exact hs.imp (fun h => by simpa [diffGE] using h)
  · have hw : find_player_elo (str "w") (str "ATP") exAtp [] = ⟨1550, 1550, 1550, 1550⟩ := by
      decide
    have hx : find_player_elo (str "x") (str "ATP") exAtp [] = ⟨1500, 1500, 1500, 1500⟩ := by
      decide
    have hy : find_player_elo (str "y") (str "ATP") exAtp [] = ⟨1700, 1700, 1700, 1700⟩ := by
      decide
    have hz : find_player_elo (str "z") (str "ATP") exAtp [] = ⟨1510, 1510, 1510, 1510⟩ := by
      decide
    have h50 : annotateMatch exAtp [] exM50 = exA50 := by
      simp [annotateMatch, exM50, exA50, hw, hx, surfaceRating, pyAbs,
        get_surface_from_tournament]
      norm_num
    have h200 : annotateMatch exAtp [] exM200 = exA200 := by
      simp [annotateMatch, exM200, exA200, hy, hx, surfaceRating, pyAbs,
        get_surface_from_tournament]
      norm_num
    have h10 : annotateMatch exAtp [] exM10 = exA10 := by
      simp [annotateMatch, exM10, exA10, hz, hx, surfaceRating, pyAbs,
        get_surface_from_tournament]
      norm_num
    rw [calculate_elo_differences]
    have hfm : ([exM50, exM200, exM10].filterMap fun m =>
        if m.player1.isEmpty || m.player2.isEmpty then none
        else some (annotateMatch exAtp [] m)) = [exA50, exA200, exA10] := by
      simp only [List.filterMap_cons, h50, h200, h10]
      rfl
    rw [hfm]
    simp [List.mergeSort, List.merge, diffGE, exA50, exA200, exA10]
    norm_num [List.merge, diffGE, exA50, exA200, exA10]

/-- A fixture with a missing first player. -/
def exBadMatch : RawMatch := ⟨[], str "B", str "ATP", [], []⟩

/-- C8: the ranker always returns a list; a match with a missing player
contributes nothing while the rest are processed, and the result can be
empty. -/
theorem ranker_isolates_bad_matches (atp wta : Table) (ms : List RawMatch) (m : RawMatch)
    (h : m.player1 = [] ∨ m.player2 = []) :
    calculate_elo_differences atp wta (m :: ms) = calculate_elo_differences atp wta ms ∧
    calculate_elo_differences atp wta ms =
      List.mergeSort
        ((ms.filter fun x => !(x.player1.isEmpty || x.player2.isEmpty)).map
          (annotateMatch atp wta)) diffGE ∧
    calculate_elo_differences atp wta [m] = [] := by
  have hbad : (m.player1.isEmpty || m.player2.isEmpty) = true := by
    rcases h with h | h <;> simp [h]
  refine ⟨?_, ?_, ?_⟩
  · rw [calculate_elo_differences, calculate_elo_differences, List.filterMap_cons, hbad]
    simp
  · rw [calculate_elo_differences, filterMap_if_eq_map_filter]
  · rw [calculate_elo_differences, List.filterMap_cons, hbad]
    simp

/-! ## Table-construction lemmas -/

theorem mem_dictInsert {e : PyStr × RatingRecord} {k : PyStr} {v : RatingRecord} :
    ∀ {t : Table}, e ∈ dictInsert k v t → e = (k, v) ∨ e ∈ t := by
  intro t
  induction t with
  | nil =>
    intro h
    rw [dictInsert, List.mem_singleton] at h
    exact Or.inl h
  | cons p t ih =>
    rcases p with ⟨k₀, v₀⟩
    intro h
    rw [dictInsert] at h
    split at h
    · rename_i hk
      subst hk
      rcases List.mem_cons.mp h with h | h
      · exact Or.inl (by simpa using h)
      · exact Or.inr (List.mem_cons_of_mem _ h)
    · rcases List.mem_cons.mp h with h | h
      · exact Or.inr (h ▸ List.mem_cons_self _ _)
      · rcases ih h with h | h
        · exact Or.inl h
        · exact Or.inr (List.mem_cons_of_mem _ h)

theorem load_elo_foldl_mem {e : PyStr × RatingRecord} :
    ∀ (rows : List EloRow) (t₀ : Table),
      e ∈ rows.foldl
          (fun t r =>
            match r.player with
            | none => t
            | some name => dictInsert (pyStrip (pyLower name)) (mkRecord r) t)
          t₀ →
        e ∈ t₀ ∨ ∃ r ∈ rows, r.player ≠ none ∧ e.2 = mkRecord r := by
  intro rows
  induction rows with
  | nil =>
    intro t₀ h
    exact Or.inl h
  | cons r rows ih =>
    intro t₀ h
    rw [List.foldl_cons] at h
    rcases ih _ h with h1 | ⟨r₁, hr₁, hp₁, he₁⟩
    · rcases hr : r.player with _ | name
      · rw [hr] at h1
        exact Or.inl h1
      · rw [hr] at h1
        rcases mem_dictInsert h1 with h2 | h2
        · refine Or.inr ⟨r, List.mem_cons_self _ _, by simp [hr], ?_⟩
          rw [h2]
        · exact Or.inl h2
    · exact Or.inr ⟨r₁, List.mem_cons_of_mem _ hr₁, hp₁, he₁⟩

/-- The missing-clay example row of the spec. -/
def exRow : EloRow := ⟨some (str "a"), some 1600, none, none, none⟩

/-- C7: every record inserted during table construction has all four
fields filled by the fallback chain surface value, then the row's
overall value, then 1500; a row with overall 1600 and no clay value
yields clay 1600. -/
theorem rating_record_fields_fallback :
    (∀ (rows : List EloRow), ∀ e ∈ load_elo_data rows,
      ∃ r ∈ rows, r.player ≠ none ∧
        e.2.overall = r.elo.getD 1500 ∧
        e.2.hard = r.hElo.getD (r.elo.getD 1500) ∧
        e.2.clay = r.cElo.getD (r.elo.getD 1500) ∧
        e.2.grass = r.gElo.getD (r.elo.getD 1500)) ∧
    load_elo_data [exRow] = [(str "a", ⟨1600, 1600, 1600, 1600⟩)] ∧
    (mkRecord exRow).clay = 1600 := by
  refine ⟨?_, by decide, by decide⟩
  intro rows e he
  rcases load_elo_foldl_mem rows [] he with h | ⟨r, hr, hp, hrec⟩
  · simp at h
  · exact ⟨r, hr, hp, by rw [hrec]; rfl, by rw [hrec]; rfl, by rw [hrec]; rfl,
      by rw [hrec]; rfl⟩

/-- Closed instantiation of C7 at the example row. -/
theorem rating_record_fields_fallback_witness :
    ∃ r ∈ [exRow], r.player ≠ none ∧
      (⟨1600, 1600, 1600, 1600⟩ : RatingRecord).overall = r.elo.getD 1500 ∧
      (⟨1600, 1600, 1600, 1600⟩ : RatingRecord).hard = r.hElo.getD (r.elo.getD 1500) ∧
      (⟨1600, 1600, 1600, 1600⟩ : RatingRecord).clay = r.cElo.getD (r.elo.getD 1500) ∧
      (⟨1600, 1600, 1600, 1600⟩ : RatingRecord).grass = r.gElo.getD (r.elo.getD 1500) :=
  rating_record_fields_fallback.1 [exRow] (str "a", ⟨1600, 1600, 1600, 1600⟩) (by decide)

/-! ## Resolver theorems -/

/-- C5: whenever the normalized name is a key of the selected table,
the resolver returns that key's record via the exact-match rule. -/
theorem exact_match_precedence (name tour : PyStr) (atp wta : Table) (r : RatingRecord)
    (hne : name ≠ [])
    (hex : exactLookup (normalize_player_name name) (selectTable tour atp wta) = some r) :
    find_player_elo name tour atp wta = r := by
  rw [find_player_elo, if_neg (by simpa using hne), resolveIn]
  rw [hex]
  rfl

/-- Closed instantiation of C5 at the table containing the key
`novak djokovic`. -/
theorem exact_match_precedence_witness :
    find_player_elo (str "Novak Djokovic") (str "ATP")
      [(str "novak djokovic", ⟨1, 2, 3, 4⟩)] [] = ⟨1, 2, 3, 4⟩ :=
  exact_match_precedence (str "Novak Djokovic") (str "ATP")
    [(str "novak djokovic", ⟨1, 2, 3, 4⟩)] [] ⟨1, 2, 3, 4⟩ (by decide) (by decide)

theorem tokenLookup_nil (n : PyStr) : tokenLookup n [] = none := by
  rw [tokenLookup]
  split <;> rfl

theorem surnameLookup_nil (n : PyStr) : surnameLookup n [] = none := by
  rw [surnameLookup]
  split
  · rfl
  · split <;> rfl

/-- C1: the resolver is total and defaults: for every tour and every
pair of tables an empty raw name returns the default record at once,
the cascade over empty tables returns it for every name, and whenever
no cascade rule matches on the selected table it is returned. -/
theorem resolver_total_default (name tour : PyStr) (atp wta : Table) :
    find_player_elo [] tour atp wta = defaultRecord ∧
    find_player_elo name tour [] [] = defaultRecord ∧
    (exactLookup (normalize_player_name name) (selectTable tour atp wta) = none →
      containLookup (normalize_player_name name) (selectTable tour atp wta) = none →
      tokenLookup (normalize_player_name name) (selectTable tour atp wta) = none →
      surnameLookup (normalize_player_name name) (selectTable tour atp wta) = none →
      find_player_elo name tour atp wta = defaultRecord) := by
  refine ⟨rfl, ?_, ?_⟩
  · rw [find_player_elo]
    split
    · rfl
    · rw [resolveIn]
      have hsel : selectTable tour ([] : Table) ([] : Table) = [] := by
        rw [selectTable]
        split <;> rfl
      rw [hsel, tokenLookup_nil, surnameLookup_nil]
      rfl
  · intro h1 h2 h3 h4
    rw [find_player_elo]
    split
    · rfl
    · rw [resolveIn, h1, h2, h3, h4]
      rfl

/-- Closed instantiation of C1 at `Unknown Player Xyz` over empty
tables. -/
theorem resolver_total_default_witness :
    find_player_elo (str "Unknown Player Xyz") (str "ATP") [] [] = defaultRecord :=
  (resolver_total_default (str "Unknown Player Xyz") (str "ATP") [] []).2.2
    (by decide) (by decide) (by decide) (by decide)

/-! ## Surface-classification theorems -/

theorem any_false_of_not_any {α : Type} {p : α → Bool} {l : List α} (h : ¬l.any p = true) :
    ∀ k ∈ l, p k = false := by
  intro k hk
  cases hpk : p k
  · rfl
  · exact absurd (List.any_eq_true.mpr ⟨k, hk, hpk⟩) h

/-- C6: surface classification is total over hard, clay and grass:
empty names are hard, clay keywords take precedence over grass ones,
and anything else is hard; the four example tournaments classify as
in the spec. -/
theorem surface_classification_total :
    (∀ t : PyStr,
      (get_surface_from_tournament t = .clay ↔
        t ≠ [] ∧ ∃ k ∈ clay_keywords, subOf k (pyLower t) = true) ∧
      (get_surface_from_tournament t = .grass ↔
        t ≠ [] ∧ (∀ k ∈ clay_keywords, subOf k (pyLower t) = false) ∧
          ∃ k ∈ grass_keywords, subOf k (pyLower t) = true) ∧
      (get_surface_from_tournament t = .hard ↔
        t = [] ∨ ((∀ k ∈ clay_keywords, subOf k (pyLower t) = false) ∧
          ∀ k ∈ grass_keywords, subOf k (pyLower t) = false))) ∧
    get_surface_from_tournament [] = .hard ∧
    get_surface_from_tournament (str "Roland Garros") = .clay ∧
    get_surface_from_tournament (str "Wimbledon") = .grass ∧
    get_surface_from_tournament (str "US Open") = .hard := by
  refine ⟨fun t => ?_, by decide, by decide, by decide, by decide⟩
  by_cases h0 : t.isEmpty
  · have ht : t = [] := List.isEmpty_iff.mp h0
    subst ht
    simp [get_surface_from_tournament]
  · have ht : ¬t = [] := fun hh => h0 (by simp [hh])
    by_cases h1 : clay_keywords.any (fun k => subOf k (pyLower t))
    · have hcs : get_surface_from_tournament t = .clay := by
        rw [get_surface_from_tournament, if_neg h0, if_pos h1]
      rw [hcs]
      rw [List.any_eq_true] at h1
      obtain ⟨k0, hk0m, hk0⟩ := h1
      refine ⟨?_, ?_, ?_⟩
      · simp only [true_iff]
        exact ⟨ht, k0, hk0m, hk0⟩
      · constructor
        · intro hcc
          exact absurd hcc (by simp)
        · rintro ⟨-, hall, -⟩
          simpa [hk0] using hall k0 hk0m
      · constructor
        · intro hcc
          exact absurd hcc (by simp)
        · rintro (hemp | ⟨hall, -⟩)
          · exact absurd hemp ht
          · simpa [hk0] using hall k0 hk0m
    · have h1f := any_false_of_not_any h1
      by_cases h2 : grass_keywords.any (fun k => subOf k (pyLower t))
      · have hgs : get_surface_from_tournament t = .grass := by
          rw [get_surface_from_tournament, if_neg h0, if_neg h1, if_pos h2]
        rw [hgs]
        rw [List.any_eq_true] at h2
        obtain ⟨k0, hk0m, hk0⟩ := h2
        refine ⟨?_, ?_, ?_⟩
        · constructor
          · intro hcc
            exact absurd hcc (by simp)
          · rintro ⟨-, k1, hk1m, hk1⟩
            simpa [hk1] using h1f k1 hk1m
        · simp only [true_iff]
          exact ⟨ht, h1f, k0, hk0m, hk0⟩
        · constructor
          · intro hcc
            exact absurd hcc (by simp)
          · rintro (hemp | ⟨-, hallg⟩)
            · exact absurd hemp ht
            · simpa [hk0] using hallg k0 hk0m
      · have h2f := any_false_of_not_any h2
        have hhs : get_surface_from_tournament t = .hard := by
          rw [get_surface_from_tournament, if_neg h0, if_neg h1, if_neg h2]
        rw [hhs]
        refine ⟨?_, ?_, ?_⟩
        · constructor
          · intro hcc
            exact absurd hcc (by simp)
          · rintro ⟨-, k1, hk1m, hk1⟩
            simpa [hk1] using h1f k1 hk1m
        · constructor
          · intro hcc
            exact absurd hcc (by simp)
          · rintro ⟨-, -, k1, hk1m, hk1⟩
            simpa [hk1] using h2f k1 hk1m
        · simp only [true_iff]
          exact Or.inr ⟨h1f, h2f⟩

/-! ## Empty-normalized-name and table-selection theorems -/

theorem subOf_nil_left : ∀ b : PyStr, subOf [] b = true := by
  intro b
  cases b with
  | nil => rfl
  | cons x xs => rfl

/-- A first test record. -/
def exRecA : RatingRecord := ⟨1, 1, 1, 1⟩

/-- A second, different test record. -/
def exRecB : RatingRecord := ⟨2, 2, 2, 2⟩

/-- C9 counterexample: with the empty string present as a key of a
later entry, the exact rule fires on the empty normalized name and the
resolver does not return the first entry's record. -/
theorem resolver_empty_normalized_ce :
    str "." ≠ [] ∧
    normalize_player_name (str ".") = [] ∧
    find_player_elo (str ".") (str "ATP") [(str "a", exRecA), (str "", exRecB)] [] = exRecB ∧
    exRecB ≠ exRecA := by decide

/-- C9 (amended): over a non-empty selected table none of whose keys is
the empty string, a non-empty raw name normalizing to the empty string
resolves to the first table entry's record, because the empty string is
a substring of every stored key. -/
theorem resolver_empty_normalized_first_entry (raw tour : PyStr) (atp wta : Table)
    (e0 : PyStr × RatingRecord) (rest : Table)
    (hraw : raw ≠ [])
    (hnorm : normalize_player_name raw = [])
    (hsel : selectTable tour atp wta = e0 :: rest)
    (hkeys : ∀ e ∈ selectTable tour atp wta, e.1 ≠ ([] : PyStr)) :
    find_player_elo raw tour atp wta = e0.2 := by
  have hex : exactLookup (normalize_player_name raw) (selectTable tour atp wta) = none := by
    rw [hnorm, exactLookup, List.find?_eq_none.mpr (fun e he => by
      simpa using hkeys e he)]
    rfl
  have hcon : containLookup (normalize_player_name raw) (selectTable tour atp wta) =
      some e0.2 := by
    rw [hnorm, containLookup, hsel, List.find?_cons_of_pos _ (by simp [subOf_nil_left])]
    rfl
  rw [find_player_elo, if_neg (by simpa using hraw)]
  simp only [resolveIn]
  rw [hex, hcon]
  rfl

/-- Closed instantiation of the amended C9 at the one-entry table. -/
theorem resolver_empty_normalized_first_entry_witness :
    find_player_elo (str ".") (str "ATP") [(str "a", exRecA)] [] = exRecA :=
  resolver_empty_normalized_first_entry (str ".") (str "ATP") [(str "a", exRecA)] []
    (str "a", exRecA) [] (by decide) (by decide) (by decide) (by decide)

/-- C10: the resolver uses the ATP table exactly when the tour string
uppercases to `ATP`; `Unknown`, `WTA`, the empty string and `wta` all
select the WTA table, while `atp` and `ATP` select the ATP table. -/
theorem tour_table_selection :
    (∀ (name tour : PyStr) (atp wta : Table),
      find_player_elo name tour atp wta =
        if name.isEmpty then defaultRecord
        else resolveIn name (if pyUpper tour = str "ATP" then atp else wta)) ∧
    (∀ atp wta : Table,
      selectTable (str "Unknown") atp wta = wta ∧
      selectTable (str "WTA") atp wta = wta ∧
      selectTable (str "") atp wta = wta ∧
      selectTable (str "wta") atp wta = wta ∧
      selectTable (str "atp") atp wta = atp ∧
      selectTable (str "ATP") atp wta = atp) := by
  refine ⟨fun name tour atp wta => rfl, fun atp wta => ?_⟩
  refine ⟨?_, ?_, ?_, ?_, ?_, ?_⟩ <;>
    first
      | exact if_neg (by decide)
      | exact if_pos (by decide)

/-- Closed instantiation of C8 at a fixture missing its first player. -/
theorem ranker_isolates_bad_matches_witness :
    calculate_elo_differences [] [] [exBadMatch] = calculate_elo_differences [] [] [] ∧
    calculate_elo_differences [] [] [] =
      List.mergeSort
        ((([] : List RawMatch).filter fun x => !(x.player1.isEmpty || x.player2.isEmpty)).map
          (annotateMatch [] [])) diffGE ∧
    calculate_elo_differences [] [] [exBadMatch] = [] :=
  ranker_isolates_bad_matches [] [] [] exBadMatch (Or.inl rfl)
